import Mathlib

/-!
A shallow embedding of the centered interval tree implemented in
pandas/src/generate_intervaltree.py (the template that generates
intervaltree.pyx, specialised per dtype and closure mode).

Modelling choices:
* Scalars are integers: this is the int64 instantiation of the template.
  In that instantiation the pivot field assignment
  pivot = np.median(left + right) / 2 computes the median exactly in
  float64 (the inputs are small integers, the median is an integer or a
  half-integer, and a quarter of an integer after the division, all exact
  in binary floating point) and then truncates toward zero in the C cast
  to the int64 pivot field; pivotOf below reproduces exactly that value.
  The float64 instantiation differs only in keeping the untruncated pivot,
  and no property proved below depends on the pivot value.
* The parallel arrays left, right, indices of a node are modelled as a
  single list of Ivl triples; sort_values_and_indices becomes a sort of
  the triples by the relevant key (the source sorts the values and
  permutes the index array identically, which is the same data;
  PyArray_ArgSort with NPY_QUICKSORT guarantees nothing about the order of
  ties, so any sorted permutation is a faithful model).
* Construction recursion is modelled with explicit fuel.  A run of the
  source recursion either reaches a recursive call on the full, unchanged
  element list (and then repeats that call forever, because the pivot and
  the classification are deterministic functions of the element list), or
  every recursive call strictly decreases n_elements, in which case the
  recursion depth is at most n_elements + 1.  Hence fuel n_elements + 1 in
  build below yields some tree exactly when the source recursion
  terminates.
-/

namespace IntervalTreeModel

/-- The four closure modes, the closed parameter of the template. -/
inductive ClosureMode where
  | left
  | right
  | both
  | neither
deriving DecidableEq, Repr

/-- The cmp_left operator of generate_node_template: less-or-equal when the
left endpoint is closed (modes left and both), strict less otherwise. -/
def cmpLeftB : ClosureMode → ℤ → ℤ → Bool
  | ClosureMode.left, a, b => decide (a ≤ b)
  | ClosureMode.right, a, b => decide (a < b)
  | ClosureMode.both, a, b => decide (a ≤ b)
  | ClosureMode.neither, a, b => decide (a < b)

/-- The cmp_right operator of generate_node_template: less-or-equal when the
right endpoint is closed (modes right and both), strict less otherwise. -/
def cmpRightB : ClosureMode → ℤ → ℤ → Bool
  | ClosureMode.left, a, b => decide (a < b)
  | ClosureMode.right, a, b => decide (a ≤ b)
  | ClosureMode.both, a, b => decide (a ≤ b)
  | ClosureMode.neither, a, b => decide (a < b)

/-- cmp_left_converse from generate_node_template: strict less when
cmp_left is less-or-equal, and less-or-equal when cmp_left is strict. -/
def cmpLeftConverseB : ClosureMode → ℤ → ℤ → Bool
  | ClosureMode.left, a, b => decide (a < b)
  | ClosureMode.right, a, b => decide (a ≤ b)
  | ClosureMode.both, a, b => decide (a < b)
  | ClosureMode.neither, a, b => decide (a ≤ b)

/-- cmp_right_converse from generate_node_template: strict less when
cmp_right is less-or-equal, and less-or-equal when cmp_right is strict. -/
def cmpRightConverseB : ClosureMode → ℤ → ℤ → Bool
  | ClosureMode.left, a, b => decide (a ≤ b)
  | ClosureMode.right, a, b => decide (a < b)
  | ClosureMode.both, a, b => decide (a < b)
  | ClosureMode.neither, a, b => decide (a ≤ b)

/-- An interval with the closure-sense test
left cmp_left point cmp_right right, as in the leaf scan of query. -/
def containsB (c : ClosureMode) (l r p : ℤ) : Bool :=
  cmpLeftB c l p && cmpRightB c p r

/-- One entry of the parallel arrays of a node: a left bound, a right bound,
and the original position carried by the indices array. -/
structure Ivl where
  l : ℤ
  r : ℤ
  idx : ℤ
deriving DecidableEq, Repr

/-- The first branch condition of classify_intervals:
right of element cmp_right_converse pivot. -/
def condLeftOf (c : ClosureMode) (pivot : ℤ) (e : Ivl) : Bool :=
  cmpRightConverseB c e.r pivot

/-- The second branch condition of classify_intervals:
not the first branch, and pivot cmp_left_converse left of element. -/
def condRightOf (c : ClosureMode) (pivot : ℤ) (e : Ivl) : Bool :=
  !condLeftOf c pivot e && cmpLeftConverseB c pivot e.l

/-- The else branch of classify_intervals: neither of the two tests. -/
def condCenter (c : ClosureMode) (pivot : ℤ) (e : Ivl) : Bool :=
  !condLeftOf c pivot e && !cmpLeftConverseB c pivot e.l

/-- The loop of classify_intervals, producing the three lists of loop
positions (local indices into the node arrays), starting the loop counter
at k.  The source appends to three Int64Vector accumulators; here the
lists are produced front-to-back, which yields the same lists. -/
def classifyPos (c : ClosureMode) (pivot : ℤ) :
    List (ℤ × ℤ) → ℕ → List ℕ × List ℕ × List ℕ
  | [], _ => ([], [], [])
  | (l, r) :: rest, i =>
    let t := classifyPos c pivot rest (i + 1)
    if cmpRightConverseB c r pivot then (i :: t.1, t.2.1, t.2.2)
    else if cmpLeftConverseB c pivot l then (t.1, i :: t.2.1, t.2.2)
    else (t.1, t.2.1, i :: t.2.2)

/-- The take helper of the header: select the given positions from a
sequence (every position produced by classification is in bounds). -/
def takeList (source : List α) (idxs : List ℕ) : List α :=
  idxs.filterMap (fun i => source[i]?)

/-- classify_intervals followed by the take in new_child_node and in
sort_values_and_indices: partition the elements themselves according to
the three classification buckets. -/
def classifyIntervals (c : ClosureMode) (pivot : ℤ) (elems : List Ivl) :
    List Ivl × List Ivl × List Ivl :=
  let t := classifyPos c pivot (elems.map (fun e => (e.l, e.r))) 0
  (takeList elems t.1, takeList elems t.2.1, takeList elems t.2.2)

/-- Twice np.median of an integer list: the middle element of the sorted
data doubled for odd length, the sum of the two middle elements for even
length.  np.median itself is this value halved. -/
def npMedianTimesTwo (xs : List ℤ) : ℤ :=
  let s := List.insertionSort (fun a b => a ≤ b) xs
  if xs.length % 2 = 1 then 2 * s.getD (xs.length / 2) 0
  else s.getD (xs.length / 2 - 1) 0 + s.getD (xs.length / 2) 0

/-- The pivot of an internal node: np.median(left + right) / 2, where
left + right is the elementwise numpy sum, assigned to the int64 pivot
field, hence truncated toward zero by the C cast; this is exactly the
median-times-two divided by four with truncation toward zero. -/
def pivotOf (elems : List Ivl) : ℤ :=
  Int.tdiv (npMedianTimesTwo (elems.map (fun e => e.l + e.r))) 4

/-- sort_values_and_indices with the left bounds as values: the center
elements ordered by ascending left bound. -/
def sortByLeft (elems : List Ivl) : List Ivl :=
  List.insertionSort (fun a b => a.l ≤ b.l) elems

/-- sort_values_and_indices with the right bounds as values: the center
elements ordered by ascending right bound. -/
def sortByRight (elems : List Ivl) : List Ivl :=
  List.insertionSort (fun a b => a.r ≤ b.r) elems

/-- A node of the interval tree: a terminal leaf holding its arrays, or
an internal node holding the pivot, the two children, and the center
elements sorted by left bound and by right bound. -/
inductive Node where
  | leaf (elems : List Ivl)
  | node (pivot : ℤ) (left_node right_node : Node)
      (center_left center_right : List Ivl)
deriving DecidableEq, Repr

/-- The recursive node constructor, with explicit fuel bounding the
recursion depth.  The source makes a leaf when n_elements is at most
leaf_size, and otherwise computes pivot = median(left + right) / 2
(elementwise numpy sum), classifies, and recurses into the two side
buckets. -/
def buildNode (c : ClosureMode) (leaf_size : ℤ) :
    ℕ → List Ivl → Option Node
  | 0, _ => none
  | fuel + 1, elems =>
    if (elems.length : ℤ) ≤ leaf_size then
      some (Node.leaf elems)
    else
      let pivot := pivotOf elems
      let t := classifyIntervals c pivot elems
      match buildNode c leaf_size fuel t.1, buildNode c leaf_size fuel t.2.1 with
      | some ln, some rn =>
          some (Node.node pivot ln rn (sortByLeft t.2.2) (sortByRight t.2.2))
      | _, _ => none

/-- The query method of a node: the list of original positions appended to
the result vector, in append order.  Leaf: linear scan.  Internal: scan of
the sorted center arrays with the early break of the source (takeWhile on
the sorted-by-left list from the front for a point below the pivot, on the
reversed sorted-by-right list for a point above), then recursion into one
child; a point equal to the pivot extends by all center indices. -/
def Node.query (c : ClosureMode) : Node → ℤ → List ℤ
  | Node.leaf elems, p =>
      (elems.filter (fun e => containsB c e.l e.r p)).map (fun e => e.idx)
  | Node.node pivot ln rn cl cr, p =>
      if p < pivot then
        (cl.takeWhile (fun e => cmpLeftB c e.l p)).map (fun e => e.idx)
          ++ Node.query c ln p
      else if pivot < p then
        (cr.reverse.takeWhile (fun e => cmpRightB c p e.r)).map (fun e => e.idx)
          ++ Node.query c rn p
      else
        cl.map (fun e => e.idx)

/-- The multiset of original positions stored in a node: leaf slices and
center arrays, over the whole subtree. -/
def Node.allIdx : Node → Multiset ℤ
  | Node.leaf elems => (elems.map (fun e => e.idx) : List ℤ)
  | Node.node _ ln rn cl _ =>
      Node.allIdx ln + Node.allIdx rn + (cl.map (fun e => e.idx) : List ℤ)

/-- Brute force reference: the positions of the intervals containing the
point, scanning the elements in order. -/
def bruteForce (c : ClosureMode) (elems : List Ivl) (p : ℤ) : List ℤ :=
  (elems.filter (fun e => containsB c e.l e.r p)).map (fun e => e.idx)

/-- Zip the left and right bound arrays with the positions arange(n),
starting at position k. -/
def mkElems : List ℤ → List ℤ → ℤ → List Ivl
  | l :: ls, r :: rs, k => ⟨l, r, k⟩ :: mkElems ls rs (k + 1)
  | _, _, _ => []

/-- The closed-argument validation of IntervalTree.init: the four
recognised option strings, anything else is a ValueError. -/
def parseClosed (closed : String) : Option ClosureMode :=
  if closed = "left" then some ClosureMode.left
  else if closed = "right" then some ClosureMode.right
  else if closed = "both" then some ClosureMode.both
  else if closed = "neither" then some ClosureMode.neither
  else none

/-- How a build call can fail: the ValueError on an unrecognised closed
option, or unbounded recursion in the node constructor (the source
recurses forever, never producing a tree). -/
inductive BuildError where
  | invalidClosedOption (closed : String)
  | nonTermination
deriving DecidableEq, Repr

/-- A built tree: the resolved closure mode, the root node, and the
original unsorted bound arrays kept on the tree object. -/
structure Tree where
  closed : ClosureMode
  root : Node
  left : List ℤ
  right : List ℤ
deriving DecidableEq, Repr

/-- IntervalTree.init: validate the closed option, form
indices = arange(n), and build the root node.  Fuel n + 1 suffices for
every terminating run of the source recursion (see the header comment);
exhausted fuel models the runs on which the source recursion never
returns. -/
def build (left right : List ℤ) (closed : String) (leaf_size : ℤ) :
    Except BuildError Tree :=
  match parseClosed closed with
  | none => Except.error (BuildError.invalidClosedOption closed)
  | some c =>
    let elems := mkElems left right 0
    match buildNode c leaf_size (elems.length + 1) elems with
    | some root => Except.ok ⟨c, root, left, right⟩
    | none => Except.error BuildError.nonTermination

/-- get_loc: query the root; raise KeyError (modelled as the error value
carrying the key) when nothing was appended, else return the positions. -/
def Tree.get_loc (t : Tree) (key : ℤ) : Except ℤ (List ℤ) :=
  let result := Node.query t.closed t.root key
  if result.length = 0 then Except.error key else Except.ok result

/-- The loop of get_indexer: query each target into the cumulative result
vector; on no growth append the sentinel -1, on growth by more than one
raise KeyError (modelled as none, no partial array escapes). -/
def getIndexerLoop (c : ClosureMode) (root : Node) :
    List ℤ → List ℤ → Option (List ℤ)
  | [], result => some result
  | p :: rest, result =>
    let r := result ++ Node.query c root p
    if r.length = result.length then
      getIndexerLoop c root rest (r ++ [(-1 : ℤ)])
    else if result.length + 1 < r.length then none
    else getIndexerLoop c root rest r

/-- get_indexer: the unique batch indexer over the target points. -/
def Tree.get_indexer (t : Tree) (target : List ℤ) : Option (List ℤ) :=
  getIndexerLoop t.closed t.root target []

/-- The loop of get_indexer_non_unique: query each target into the
cumulative result vector; on no growth append the sentinel -1 and record
the target position in the missing vector. -/
def getIndexerNonUniqueLoop (c : ClosureMode) (root : Node) :
    List ℤ → ℤ → List ℤ → List ℤ → List ℤ × List ℤ
  | [], _, result, missing => (result, missing)
  | p :: rest, i, result, missing =>
    let r := result ++ Node.query c root p
    if r.length = result.length then
      getIndexerNonUniqueLoop c root rest (i + 1) (r ++ [(-1 : ℤ)])
        (missing ++ [i])
    else
      getIndexerNonUniqueLoop c root rest (i + 1) r missing

/-- get_indexer_non_unique: the non-unique batch indexer. -/
def Tree.get_indexer_non_unique (t : Tree) (target : List ℤ) :
    List ℤ × List ℤ :=
  getIndexerNonUniqueLoop t.closed t.root target 0 [] []

/-- Specification helper for the non-unique indexer: the positions,
counting from i, of the query points that match no interval. -/
def missingIdx (c : ClosureMode) (elems : List Ivl) :
    List ℤ → ℤ → List ℤ
  | [], _ => []
  | p :: rest, i =>
    if bruteForce c elems p = [] then i :: missingIdx c elems rest (i + 1)
    else missingIdx c elems rest (i + 1)

/-! Basic facts about the closure-mode comparison operators. -/

theorem cmpLeftConverseB_eq (c : ClosureMode) (a b : ℤ) :
    cmpLeftConverseB c a b = !cmpLeftB c b a := by
  cases c <;>
    simp [cmpLeftConverseB, cmpLeftB, ← decide_not, not_le, not_lt]

theorem cmpRightConverseB_eq (c : ClosureMode) (a b : ℤ) :
    cmpRightConverseB c a b = !cmpRightB c b a := by
  cases c <;>
    simp [cmpRightConverseB, cmpRightB, ← decide_not, not_le, not_lt]

theorem cmpLeftB_mono (c : ClosureMode) {l p q : ℤ}
    (h : cmpLeftB c l p = true) (hpq : p ≤ q) : cmpLeftB c l q = true := by
  cases c <;> simp only [cmpLeftB, decide_eq_true_eq] at h ⊢ <;> linarith

theorem cmpLeftB_anti (c : ClosureMode) {l m p : ℤ}
    (h : cmpLeftB c l p = true) (hml : m ≤ l) : cmpLeftB c m p = true := by
  cases c <;> simp only [cmpLeftB, decide_eq_true_eq] at h ⊢ <;> linarith

theorem cmpRightB_mono (c : ClosureMode) {p r s : ℤ}
    (h : cmpRightB c p r = true) (hrs : r ≤ s) : cmpRightB c p s = true := by
  cases c <;> simp only [cmpRightB, decide_eq_true_eq] at h ⊢ <;> linarith

theorem cmpRightB_anti (c : ClosureMode) {p q r : ℤ}
    (h : cmpRightB c p r = true) (hqp : q ≤ p) : cmpRightB c q r = true := by
  cases c <;> simp only [cmpRightB, decide_eq_true_eq] at h ⊢ <;> linarith

/-- The else branch of classification holds exactly for the intervals that
contain the pivot in the query sense. -/
theorem condCenter_eq_contains (c : ClosureMode) (pivot : ℤ) (e : Ivl) :
    condCenter c pivot e = containsB c e.l e.r pivot := by
  rw [condCenter, condLeftOf, containsB, cmpRightConverseB_eq,
    cmpLeftConverseB_eq, Bool.not_not, Bool.not_not, Bool.and_comm]

theorem condLeftOf_not_contains (c : ClosureMode) (pivot : ℤ) (e : Ivl)
    (h : condLeftOf c pivot e = true) :
    containsB c e.l e.r pivot = false := by
  rw [condLeftOf, cmpRightConverseB_eq] at h
  rw [containsB]
  simp only [Bool.not_eq_true'] at h
  simp [h]

theorem condRightOf_not_contains (c : ClosureMode) (pivot : ℤ) (e : Ivl)
    (h : condRightOf c pivot e = true) :
    containsB c e.l e.r pivot = false := by
  rw [condRightOf, cmpLeftConverseB_eq] at h
  rw [containsB]
  simp only [Bool.and_eq_true, Bool.not_eq_true'] at h
  simp [h.2]

/-! The classification loop produces the three filter lists. -/

theorem classifyPos_takeList (c : ClosureMode) (pivot : ℤ) :
    ∀ (suf pre : List Ivl),
      takeList (pre ++ suf)
          (classifyPos c pivot (suf.map (fun e => (e.l, e.r))) pre.length).1
        = suf.filter (condLeftOf c pivot)
      ∧ takeList (pre ++ suf)
          (classifyPos c pivot (suf.map (fun e => (e.l, e.r))) pre.length).2.1
        = suf.filter (condRightOf c pivot)
      ∧ takeList (pre ++ suf)
          (classifyPos c pivot (suf.map (fun e => (e.l, e.r))) pre.length).2.2
        = suf.filter (condCenter c pivot) := by
  intro suf
  induction suf with
  | nil => intro pre; simp [classifyPos, takeList]
  | cons e rest ih =>
    intro pre
    have hmid : (pre ++ [e]) ++ rest = pre ++ e :: rest := by simp
    have ih2 := ih (pre ++ [e])
    rw [hmid] at ih2
    have hlen : (pre ++ [e]).length = pre.length + 1 := by simp
    rw [hlen] at ih2
    have htake : ∀ B : List ℕ,
        takeList (pre ++ e :: rest) (pre.length :: B)
          = e :: takeList (pre ++ e :: rest) B := by
      intro B
      have hget : (pre ++ e :: rest)[pre.length]? = some e := by
        rw [List.getElem?_append_right (le_refl _)]
        simp
      simp [takeList, List.filterMap_cons, hget]
    simp only [List.map_cons, classifyPos]
    by_cases h1 : cmpRightConverseB c e.r pivot
    · have hcl : condLeftOf c pivot e = true := h1
      have hcr : condRightOf c pivot e = false := by
        simp [condRightOf, condLeftOf, h1]
      have hcc : condCenter c pivot e = false := by
        simp [condCenter, condLeftOf, h1]
      rw [if_pos h1]
      refine ⟨?_, ?_, ?_⟩
      · simp [htake, ih2.1, List.filter_cons, hcl]
      · simp [ih2.2.1, List.filter_cons, hcr]
      · simp [ih2.2.2, List.filter_cons, hcc]
    · by_cases h2 : cmpLeftConverseB c pivot e.l
      · have hcl : condLeftOf c pivot e = false := by
          simpa [condLeftOf] using h1
        have hcr : condRightOf c pivot e = true := by
          simp [condRightOf, condLeftOf, h1, h2]
        have hcc : condCenter c pivot e = false := by
          simp [condCenter, h2]
        rw [if_neg h1, if_pos h2]
        refine ⟨?_, ?_, ?_⟩
        · simp [ih2.1, List.filter_cons, hcl]
        · simp [htake, ih2.2.1, List.filter_cons, hcr]
        · simp [ih2.2.2, List.filter_cons, hcc]
      · have hcl : condLeftOf c pivot e = false := by
          simpa [condLeftOf] using h1
        have hcr : condRightOf c pivot e = false := by
          simp [condRightOf, h2]
        have hcc : condCenter c pivot e = true := by
          simp [condCenter, condLeftOf, h1, h2]
        rw [if_neg h1, if_neg h2]
        refine ⟨?_, ?_, ?_⟩
        · simp [ih2.1, List.filter_cons, hcl]
        · simp [ih2.2.1, List.filter_cons, hcr]
        · simp [htake, ih2.2.2, List.filter_cons, hcc]

/-- classify_intervals followed by take is classification by filtering. -/
theorem classifyIntervals_eq (c : ClosureMode) (pivot : ℤ) (elems : List Ivl) :
    classifyIntervals c pivot elems =
      (elems.filter (condLeftOf c pivot),
       elems.filter (condRightOf c pivot),
       elems.filter (condCenter c pivot)) := by
  have h := classifyPos_takeList c pivot elems []
  simp only [List.nil_append, List.length_nil] at h
  rw [classifyIntervals]
  exact Prod.ext h.1 (Prod.ext h.2.1 h.2.2)

/-- The three classification buckets are a permutation partition of the
input elements. -/
theorem classify_partition_perm (c : ClosureMode) (pivot : ℤ)
    (elems : List Ivl) :
    List.Perm
      (elems.filter (condLeftOf c pivot)
        ++ (elems.filter (condRightOf c pivot)
          ++ elems.filter (condCenter c pivot)))
      elems := by
  have h2 : elems.filter (condRightOf c pivot)
      = (elems.filter (fun e => !condLeftOf c pivot e)).filter
          (fun e => cmpLeftConverseB c pivot e.l) := by
    rw [List.filter_filter]
    exact List.filter_congr (fun e _ => by rw [condRightOf, Bool.and_comm])
  have h3 : elems.filter (condCenter c pivot)
      = (elems.filter (fun e => !condLeftOf c pivot e)).filter
          (fun e => !cmpLeftConverseB c pivot e.l) := by
    rw [List.filter_filter]
    exact List.filter_congr (fun e _ => by rw [condCenter, Bool.and_comm])
  have hinner :
      List.Perm
        (elems.filter (condRightOf c pivot)
          ++ elems.filter (condCenter c pivot))
        (elems.filter (fun e => !condLeftOf c pivot e)) := by
    rw [h2, h3]
    exact List.filter_append_perm _ _
  exact (List.Perm.append_left _ hinner).trans (List.filter_append_perm _ _)

/-! The early-exit scans of query are exact on sorted center arrays. -/

/-- On a list sorted by le, an le-downward-closed predicate is decided by
the scan-until-first-failure of the source query loops. -/
theorem takeWhile_eq_filter_of_sorted {α : Type} {le : α → α → Bool}
    {p : α → Bool}
    (hmono : ∀ a b, le a b = true → p b = true → p a = true) :
    ∀ {l : List α}, l.Pairwise (fun a b => le a b = true) →
      l.takeWhile p = l.filter p := by
  intro l
  induction l with
  | nil => intro _; rfl
  | cons a l ih =>
    intro hs
    rw [List.pairwise_cons] at hs
    cases hp : p a with
    | true =>
      rw [List.takeWhile_cons_of_pos hp, List.filter_cons_of_pos hp,
        ih hs.2]
    | false =>
      rw [List.takeWhile_cons_of_neg (by simp [hp]),
        List.filter_cons_of_neg (by simp [hp])]
      symm
      rw [List.filter_eq_nil_iff]
      intro b hb
      intro hpb
      have := hmono a b (hs.1 b hb) hpb
      rw [hp] at this
      exact Bool.false_ne_true this

theorem sortByLeft_pairwise (elems : List Ivl) :
    (sortByLeft elems).Pairwise (fun a b => decide (a.l ≤ b.l) = true) := by
  have h := @List.sorted_insertionSort Ivl (fun a b => a.l ≤ b.l)
    (fun a b => inferInstance) ⟨fun a b => le_total a.l b.l⟩
    ⟨fun a b d h1 h2 => le_trans h1 h2⟩ elems
  exact List.Pairwise.imp (fun hab => decide_eq_true hab) h

theorem sortByRight_pairwise (elems : List Ivl) :
    (sortByRight elems).Pairwise (fun a b => decide (a.r ≤ b.r) = true) := by
  have h := @List.sorted_insertionSort Ivl (fun a b => a.r ≤ b.r)
    (fun a b => inferInstance) ⟨fun a b => le_total a.r b.r⟩
    ⟨fun a b d h1 h2 => le_trans h1 h2⟩ elems
  exact List.Pairwise.imp (fun hab => decide_eq_true hab) h

/-- Brute force splits along the three classification buckets. -/
theorem bruteForce_split (c : ClosureMode) (pivot : ℤ) (elems : List Ivl)
    (p : ℤ) :
    List.Perm (bruteForce c elems p)
      (bruteForce c (elems.filter (condLeftOf c pivot)) p
        ++ (bruteForce c (elems.filter (condRightOf c pivot)) p
          ++ bruteForce c (elems.filter (condCenter c pivot)) p)) := by
  have hperm := (classify_partition_perm c pivot elems).symm
  have h1 := (hperm.filter (fun e => containsB c e.l e.r p)).map
    (fun e => e.idx)
  rw [bruteForce]
  refine h1.trans (List.Perm.of_eq ?_)
  rw [List.filter_append, List.filter_append, List.map_append,
    List.map_append]
  rfl

/-- Unfolding equation for buildNode at positive fuel, with the
classification written as filters. -/
theorem buildNode_succ (c : ClosureMode) (lsz : ℤ) (fuel : ℕ)
    (elems : List Ivl) :
    buildNode c lsz (fuel + 1) elems =
      if (elems.length : ℤ) ≤ lsz then some (Node.leaf elems)
      else
        match
          buildNode c lsz fuel
            (elems.filter (condLeftOf c (pivotOf elems))),
          buildNode c lsz fuel
            (elems.filter (condRightOf c (pivotOf elems))) with
        | some ln, some rn =>
            some (Node.node (pivotOf elems) ln rn
              (sortByLeft (elems.filter (condCenter c (pivotOf elems))))
              (sortByRight (elems.filter (condCenter c (pivotOf elems)))))
        | _, _ => none := by
  simp only [buildNode, classifyIntervals_eq]

/-- The central correctness theorem: for every node produced by the
recursive constructor, a point query appends exactly the positions of the
intervals containing the point, as a permutation of the brute-force
left-to-right scan of the node's element list. -/
theorem buildNode_query_perm (c : ClosureMode) (lsz : ℤ) :
    ∀ (fuel : ℕ) (elems : List Ivl) (t : Node),
      buildNode c lsz fuel elems = some t → ∀ p : ℤ,
        List.Perm (Node.query c t p) (bruteForce c elems p) := by
  intro fuel
  induction fuel with
  | zero =>
    intro elems t h p
    exact absurd h (by simp [buildNode])
  | succ fuel ih =>
    intro elems t h p
    rw [buildNode_succ] at h
    by_cases hleaf : (elems.length : ℤ) ≤ lsz
    · rw [if_pos hleaf] at h
      injection h with h
      subst h
      exact List.Perm.refl _
    · rw [if_neg hleaf] at h
      generalize hpiv : pivotOf elems = pivot at h
      cases hln : buildNode c lsz fuel (elems.filter (condLeftOf c pivot)) with
      | none =>
        rw [hln] at h
        exact absurd h (by simp)
      | some ln =>
        cases hrn : buildNode c lsz fuel
            (elems.filter (condRightOf c pivot)) with
        | none =>
          rw [hln, hrn] at h
          exact absurd h (by simp)
        | some rn =>
          rw [hln, hrn] at h
          injection h with h
          subst h
          have hsplit := bruteForce_split c pivot elems p
          have hcenter : ∀ e ∈ elems.filter (condCenter c pivot),
              cmpLeftB c e.l pivot = true ∧ cmpRightB c pivot e.r = true := by
            intro e he
            have hc := (List.mem_filter.mp he).2
            rw [condCenter_eq_contains, containsB, Bool.and_eq_true] at hc
            exact hc
          rcases lt_trichotomy p pivot with hlt | heq | hgt
          · simp only [Node.query, if_pos hlt]
            have htw : (sortByLeft (elems.filter (condCenter c pivot))).takeWhile
                  (fun e => cmpLeftB c e.l p)
                = (sortByLeft (elems.filter (condCenter c pivot))).filter
                  (fun e => cmpLeftB c e.l p) := by
              refine takeWhile_eq_filter_of_sorted ?_
                (sortByLeft_pairwise (elems.filter (condCenter c pivot)))
              intro a b hab hb
              exact cmpLeftB_anti c hb (by simpa using hab)
            have hfperm : List.Perm
                ((sortByLeft (elems.filter (condCenter c pivot))).filter
                  (fun e => cmpLeftB c e.l p))
                ((elems.filter (condCenter c pivot)).filter
                  (fun e => cmpLeftB c e.l p)) :=
              (List.perm_insertionSort _ _).filter _
            have hCfilter : (elems.filter (condCenter c pivot)).filter
                  (fun e => cmpLeftB c e.l p)
                = (elems.filter (condCenter c pivot)).filter
                  (fun e => containsB c e.l e.r p) := by
              refine List.filter_congr ?_
              intro e he
              have hr := cmpRightB_anti c (hcenter e he).2 (le_of_lt hlt)
              rw [containsB, hr, Bool.and_true]
            have hR : bruteForce c (elems.filter (condRightOf c pivot)) p
                = [] := by
              rw [bruteForce, List.filter_eq_nil_iff.mpr, List.map_nil]
              intro e he
              have hc := ((List.mem_filter.mp he).2)
              rw [condRightOf, Bool.and_eq_true, cmpLeftConverseB_eq] at hc
              intro hcont
              rw [containsB, Bool.and_eq_true] at hcont
              have hm := cmpLeftB_mono c hcont.1 (le_of_lt hlt)
              rw [hm] at hc
              simp at hc
            have hA : List.Perm
                (((sortByLeft (elems.filter (condCenter c pivot))).takeWhile
                  (fun e => cmpLeftB c e.l p)).map (fun e => e.idx))
                (bruteForce c (elems.filter (condCenter c pivot)) p) := by
              rw [htw, bruteForce]
              exact (hfperm.trans (List.Perm.of_eq hCfilter)).map _
            have hL := ih (elems.filter (condLeftOf c pivot)) ln hln p
            rw [hR, List.nil_append] at hsplit
            exact ((hA.append hL).trans List.perm_append_comm).trans
              hsplit.symm
          · subst heq
            simp only [Node.query]
            rw [if_neg (lt_irrefl p), if_neg (lt_irrefl p)]
            have hCeq : (elems.filter (condCenter c p)).filter
                  (fun e => containsB c e.l e.r p)
                = elems.filter (condCenter c p) := by
              rw [List.filter_eq_self]
              intro e he
              have hc := (List.mem_filter.mp he).2
              rw [condCenter_eq_contains] at hc
              exact hc
            have hLnil : bruteForce c (elems.filter (condLeftOf c p)) p
                = [] := by
              rw [bruteForce, List.filter_eq_nil_iff.mpr, List.map_nil]
              intro e he hcont
              have hc := (List.mem_filter.mp he).2
              rw [condLeftOf_not_contains c p e hc] at hcont
              exact Bool.false_ne_true hcont
            have hRnil : bruteForce c (elems.filter (condRightOf c p)) p
                = [] := by
              rw [bruteForce, List.filter_eq_nil_iff.mpr, List.map_nil]
              intro e he hcont
              have hc := (List.mem_filter.mp he).2
              rw [condRightOf_not_contains c p e hc] at hcont
              exact Bool.false_ne_true hcont
            have hC : List.Perm
                ((sortByLeft (elems.filter (condCenter c p))).map
                  (fun e => e.idx))
                (bruteForce c (elems.filter (condCenter c p)) p) := by
              rw [bruteForce, hCeq]
              exact (List.perm_insertionSort _ _).map _
            rw [hLnil, hRnil, List.nil_append, List.nil_append] at hsplit
            exact hC.trans hsplit.symm
          · simp only [Node.query, if_neg (asymm hgt), if_pos hgt]
            have hrev : ((sortByRight (elems.filter (condCenter c pivot))).reverse).Pairwise
                (fun a b => decide (b.r ≤ a.r) = true) := by
              rw [List.pairwise_reverse]
              exact sortByRight_pairwise (elems.filter (condCenter c pivot))
            have htw : ((sortByRight (elems.filter (condCenter c pivot))).reverse).takeWhile
                  (fun e => cmpRightB c p e.r)
                = ((sortByRight (elems.filter (condCenter c pivot))).reverse).filter
                  (fun e => cmpRightB c p e.r) := by
              refine takeWhile_eq_filter_of_sorted ?_ hrev
              intro a b hab hb
              exact cmpRightB_mono c hb (by simpa using hab)
            have hfperm : List.Perm
                (((sortByRight (elems.filter (condCenter c pivot))).reverse).filter
                  (fun e => cmpRightB c p e.r))
                ((elems.filter (condCenter c pivot)).filter
                  (fun e => cmpRightB c p e.r)) :=
              ((List.reverse_perm _).trans (List.perm_insertionSort _ _)).filter _
            have hCfilter : (elems.filter (condCenter c pivot)).filter
                  (fun e => cmpRightB c p e.r)
                = (elems.filter (condCenter c pivot)).filter
                  (fun e => containsB c e.l e.r p) := by
              refine List.filter_congr ?_
              intro e he
              have hl := cmpLeftB_mono c (hcenter e he).1 (le_of_lt hgt)
              rw [containsB, hl, Bool.true_and]
            have hLnil : bruteForce c (elems.filter (condLeftOf c pivot)) p
                = [] := by
              rw [bruteForce, List.filter_eq_nil_iff.mpr, List.map_nil]
              intro e he
              have hc := (List.mem_filter.mp he).2
              rw [condLeftOf, cmpRightConverseB_eq] at hc
              intro hcont
              rw [containsB, Bool.and_eq_true] at hcont
              have hm := cmpRightB_anti c hcont.2 (le_of_lt hgt)
              rw [hm] at hc
              simp at hc
            have hA : List.Perm
                ((((sortByRight (elems.filter (condCenter c pivot))).reverse).takeWhile
                  (fun e => cmpRightB c p e.r)).map (fun e => e.idx))
                (bruteForce c (elems.filter (condCenter c pivot)) p) := by
              rw [htw, bruteForce]
              exact (hfperm.trans (List.Perm.of_eq hCfilter)).map _
            have hRq := ih (elems.filter (condRightOf c pivot)) rn hrn p
            rw [hLnil, List.nil_append] at hsplit
            exact ((hA.append hRq).trans List.perm_append_comm).trans
              hsplit.symm

/-! Facts about the zipped input arrays. -/

theorem bruteForce_cons (c : ClosureMode) (e : Ivl) (rest : List Ivl)
    (p : ℤ) :
    bruteForce c (e :: rest) p =
      (if containsB c e.l e.r p then [e.idx] else [])
        ++ bruteForce c rest p := by
  rw [bruteForce, List.filter_cons]
  by_cases hc : containsB c e.l e.r p
  · rw [if_pos hc, if_pos hc, List.map_cons]
    rfl
  · rw [if_neg hc, if_neg hc, List.nil_append]
    rfl

theorem mem_bruteForce_mkElems (c : ClosureMode) :
    ∀ (ls rs : List ℤ) (k : ℤ) (p : ℤ) (i : ℤ),
      i ∈ bruteForce c (mkElems ls rs k) p ↔
        ∃ j : ℕ, j < ls.length ∧ j < rs.length ∧ i = k + (j : ℤ) ∧
          containsB c (ls.getD j 0) (rs.getD j 0) p = true := by
  intro ls
  induction ls with
  | nil =>
    intro rs k p i
    simp [mkElems, bruteForce]
  | cons l ls ih =>
    intro rs k p i
    cases rs with
    | nil => simp [mkElems, bruteForce]
    | cons r rs =>
      rw [mkElems, bruteForce_cons]
      constructor
      · intro hmem
        rcases List.mem_append.mp hmem with hm | hm
        · by_cases hc : containsB c l r p
          · rw [if_pos hc] at hm
            have hi : i = k := List.mem_singleton.mp hm
            exact ⟨0, by simp, by simp, by simpa using hi, by simpa using hc⟩
          · rw [if_neg hc] at hm
            exact absurd hm (List.not_mem_nil _)
        · obtain ⟨j, hj1, hj2, hi, hcont⟩ := (ih rs (k + 1) p i).mp hm
          refine ⟨j + 1, by simpa using hj1, by simpa using hj2, ?_, ?_⟩
          · rw [hi]; push_cast; ring
          · simpa using hcont
      · rintro ⟨j, hj1, hj2, hi, hcont⟩
        cases j with
        | zero =>
          apply List.mem_append.mpr
          left
          simp only [List.getD_cons_zero] at hcont
          rw [if_pos hcont]
          simp only [Nat.cast_zero, add_zero] at hi
          simpa using hi
        | succ j =>
          apply List.mem_append.mpr
          right
          refine (ih rs (k + 1) p i).mpr ⟨j, by simpa using hj1,
            by simpa using hj2, ?_, by simpa using hcont⟩
          rw [hi]; push_cast; ring

theorem mkElems_idx_ge :
    ∀ (ls rs : List ℤ) (k : ℤ) (e : Ivl), e ∈ mkElems ls rs k → k ≤ e.idx := by
  intro ls
  induction ls with
  | nil => intro rs k e h; simp [mkElems] at h
  | cons l ls ih =>
    intro rs k e h
    cases rs with
    | nil => simp [mkElems] at h
    | cons r rs =>
      rw [mkElems] at h
      rcases List.mem_cons.mp h with rfl | h
      · exact le_refl _
      · have := ih rs (k + 1) e h
        omega

theorem mkElems_idx_pairwise :
    ∀ (ls rs : List ℤ) (k : ℤ),
      (mkElems ls rs k).Pairwise (fun a b => a.idx < b.idx) := by
  intro ls
  induction ls with
  | nil => intro rs k; simp [mkElems]
  | cons l ls ih =>
    intro rs k
    cases rs with
    | nil => simp [mkElems]
    | cons r rs =>
      rw [mkElems, List.pairwise_cons]
      refine ⟨?_, ih rs (k + 1)⟩
      intro e he
      have := mkElems_idx_ge ls rs (k + 1) e he
      simp only
      omega

/-- A query on a built tree never repeats a stored original position more
often than the input arrays do; with the distinct positions of arange the
result has no duplicates. -/
theorem bruteForce_mkElems_nodup (c : ClosureMode) (ls rs : List ℤ)
    (k : ℤ) (p : ℤ) : (bruteForce c (mkElems ls rs k) p).Nodup := by
  rw [bruteForce]
  have h1 := (mkElems_idx_pairwise ls rs k).filter
    (fun e => containsB c e.l e.r p)
  have h2 : ((mkElems ls rs k).filter
      (fun e => containsB c e.l e.r p)).map (fun e => e.idx)
      |>.Pairwise (· ≠ ·) := by
    rw [List.pairwise_map]
    exact h1.imp (fun h => ne_of_lt h)
  exact h2

/-- Partition invariant of construction: over the whole subtree, the leaf
slices and the center arrays hold exactly the node's original positions,
as a multiset. -/
theorem buildNode_allIdx (c : ClosureMode) (lsz : ℤ) :
    ∀ (fuel : ℕ) (elems : List Ivl) (t : Node),
      buildNode c lsz fuel elems = some t →
        Node.allIdx t = ((elems.map (fun e => e.idx) : List ℤ) : Multiset ℤ) := by
  intro fuel
  induction fuel with
  | zero =>
    intro elems t h
    exact absurd h (by simp [buildNode])
  | succ fuel ih =>
    intro elems t h
    rw [buildNode_succ] at h
    by_cases hleaf : (elems.length : ℤ) ≤ lsz
    · rw [if_pos hleaf] at h
      injection h with h
      subst h
      rfl
    · rw [if_neg hleaf] at h
      generalize pivotOf elems = pivot at h
      cases hln : buildNode c lsz fuel (elems.filter (condLeftOf c pivot)) with
      | none =>
        rw [hln] at h
        exact absurd h (by simp)
      | some ln =>
        cases hrn : buildNode c lsz fuel
            (elems.filter (condRightOf c pivot)) with
        | none =>
          rw [hln, hrn] at h
          exact absurd h (by simp)
        | some rn =>
          rw [hln, hrn] at h
          injection h with h
          subst h
          rw [Node.allIdx, ih _ ln hln, ih _ rn hrn]
          have hsort : ((sortByLeft (elems.filter (condCenter c pivot))).map
                (fun e => e.idx) : Multiset ℤ)
              = ((elems.filter (condCenter c pivot)).map
                (fun e => e.idx) : Multiset ℤ) :=
            Multiset.coe_eq_coe.mpr ((List.perm_insertionSort _ _).map _)
          rw [hsort]
          have hperm := classify_partition_perm c pivot elems
          have hmaps := hperm.map (fun e => e.idx)
          have : ((((elems.filter (condLeftOf c pivot)).map (fun e => e.idx)
                ++ ((elems.filter (condRightOf c pivot)).map (fun e => e.idx)
                  ++ (elems.filter (condCenter c pivot)).map (fun e => e.idx))) : List ℤ) : Multiset ℤ)
              = ((elems.map (fun e => e.idx) : List ℤ) : Multiset ℤ) := by
            refine Multiset.coe_eq_coe.mpr ?_
            rw [← List.map_append, ← List.map_append]
            exact hmaps
          rw [← this]
          rw [← Multiset.coe_add, ← Multiset.coe_add]
          rw [add_assoc]

/-! Tree-level inversion and correctness. -/

theorem build_ok_elim (left right : List ℤ) (closed : String) (lsz : ℤ)
    (t : Tree) (h : build left right closed lsz = Except.ok t) :
    parseClosed closed = some t.closed
    ∧ buildNode t.closed lsz ((mkElems left right 0).length + 1)
        (mkElems left right 0) = some t.root
    ∧ t.left = left ∧ t.right = right := by
  rw [build] at h
  cases hp : parseClosed closed with
  | none =>
    rw [hp] at h
    exact absurd h (by simp)
  | some c =>
    rw [hp] at h
    dsimp only at h
    cases hb : buildNode c lsz ((mkElems left right 0).length + 1)
        (mkElems left right 0) with
    | none =>
      rw [hb] at h
      exact absurd h (by simp)
    | some root =>
      rw [hb] at h
      injection h with h
      subst h
      exact ⟨rfl, hb, rfl, rfl⟩

/-- Correctness of a root query on any successfully built tree, stated
against the brute-force scan of the zipped original arrays. -/
theorem build_query_perm (left right : List ℤ) (closed : String) (lsz : ℤ)
    (t : Tree) (h : build left right closed lsz = Except.ok t) (p : ℤ) :
    List.Perm (Node.query t.closed t.root p)
      (bruteForce t.closed (mkElems left right 0) p) := by
  obtain ⟨_, hb, _, _⟩ := build_ok_elim left right closed lsz t h
  exact buildNode_query_perm t.closed lsz _ _ t.root hb p

/-! Position-level facts about the classification loop. -/

theorem classifyPos_mem (c : ClosureMode) (pivot : ℤ) :
    ∀ (pairs : List (ℤ × ℤ)) (k : ℕ) (i : ℕ),
      (i ∈ (classifyPos c pivot pairs k).1 ↔
        ∃ j : ℕ, j < pairs.length ∧ i = k + j ∧
          cmpRightConverseB c (pairs.getD j (0, 0)).2 pivot = true)
      ∧ (i ∈ (classifyPos c pivot pairs k).2.1 ↔
        ∃ j : ℕ, j < pairs.length ∧ i = k + j ∧
          cmpRightConverseB c (pairs.getD j (0, 0)).2 pivot = false ∧
          cmpLeftConverseB c pivot (pairs.getD j (0, 0)).1 = true)
      ∧ (i ∈ (classifyPos c pivot pairs k).2.2 ↔
        ∃ j : ℕ, j < pairs.length ∧ i = k + j ∧
          cmpRightConverseB c (pairs.getD j (0, 0)).2 pivot = false ∧
          cmpLeftConverseB c pivot (pairs.getD j (0, 0)).1 = false) := by
  intro pairs
  induction pairs with
  | nil =>
    intro k i
    simp [classifyPos]
  | cons pr rest ih =>
    intro k i
    obtain ⟨l, r⟩ := pr
    rw [classifyPos]
    by_cases h1 : cmpRightConverseB c r pivot
    · rw [if_pos h1]
      refine ⟨?_, ?_, ?_⟩
      · simp only [List.mem_cons]
        constructor
        · rintro (rfl | hm)
          · exact ⟨0, by simp, by simp, by simpa using h1⟩
          · obtain ⟨j, hj, hij, hc⟩ := ((ih (k + 1) i).1).mp hm
            exact ⟨j + 1, by simpa using hj, by omega, by simpa using hc⟩
        · rintro ⟨j, hj, hij, hc⟩
          cases j with
          | zero => left; omega
          | succ j =>
            right
            exact ((ih (k + 1) i).1).mpr
              ⟨j, by simpa using hj, by omega, by simpa using hc⟩
      · rw [(ih (k + 1) i).2.1]
        constructor
        · rintro ⟨j, hj, hij, hc⟩
          exact ⟨j + 1, by simpa using hj, by omega, by simpa using hc⟩
        · rintro ⟨j, hj, hij, hc⟩
          cases j with
          | zero =>
            simp only [List.getD_cons_zero] at hc
            rw [h1] at hc
            exact absurd hc.1 (by simp)
          | succ j =>
            exact ⟨j, by simpa using hj, by omega, by simpa using hc⟩
      · rw [(ih (k + 1) i).2.2]
        constructor
        · rintro ⟨j, hj, hij, hc⟩
          exact ⟨j + 1, by simpa using hj, by omega, by simpa using hc⟩
        · rintro ⟨j, hj, hij, hc⟩
          cases j with
          | zero =>
            simp only [List.getD_cons_zero] at hc
            rw [h1] at hc
            exact absurd hc.1 (by simp)
          | succ j =>
            exact ⟨j, by simpa using hj, by omega, by simpa using hc⟩
    · rw [if_neg h1]
      have h1f : cmpRightConverseB c r pivot = false :=
        Bool.not_eq_true _ ▸ (by simpa using h1)
      by_cases h2 : cmpLeftConverseB c pivot l
      · rw [if_pos h2]
        refine ⟨?_, ?_, ?_⟩
        · rw [(ih (k + 1) i).1]
          constructor
          · rintro ⟨j, hj, hij, hc⟩
            exact ⟨j + 1, by simpa using hj, by omega, by simpa using hc⟩
          · rintro ⟨j, hj, hij, hc⟩
            cases j with
            | zero =>
              simp only [List.getD_cons_zero] at hc
              rw [h1f] at hc
              exact absurd hc (by simp)
            | succ j =>
              exact ⟨j, by simpa using hj, by omega, by simpa using hc⟩
        · simp only [List.mem_cons]
          constructor
          · rintro (rfl | hm)
            · exact ⟨0, by simp, by simp, by simpa using h1f,
                by simpa using h2⟩
            · obtain ⟨j, hj, hij, hc⟩ := ((ih (k + 1) i).2.1).mp hm
              exact ⟨j + 1, by simpa using hj, by omega, by simpa using hc⟩
          · rintro ⟨j, hj, hij, hc⟩
            cases j with
            | zero => left; omega
            | succ j =>
              right
              exact ((ih (k + 1) i).2.1).mpr
                ⟨j, by simpa using hj, by omega, by simpa using hc⟩
        · rw [(ih (k + 1) i).2.2]
          constructor
          · rintro ⟨j, hj, hij, hc⟩
            exact ⟨j + 1, by simpa using hj, by omega, by simpa using hc⟩
          · rintro ⟨j, hj, hij, hc⟩
            cases j with
            | zero =>
              simp only [List.getD_cons_zero] at hc
              rw [h2] at hc
              exact absurd hc.2 (by simp)
            | succ j =>
              exact ⟨j, by simpa using hj, by omega, by simpa using hc⟩
      · rw [if_neg h2]
        have h2f : cmpLeftConverseB c pivot l = false :=
          Bool.not_eq_true _ ▸ (by simpa using h2)
        refine ⟨?_, ?_, ?_⟩
        · rw [(ih (k + 1) i).1]
          constructor
          · rintro ⟨j, hj, hij, hc⟩
            exact ⟨j + 1, by simpa using hj, by omega, by simpa using hc⟩
          · rintro ⟨j, hj, hij, hc⟩
            cases j with
            | zero =>
              simp only [List.getD_cons_zero] at hc
              rw [h1f] at hc
              exact absurd hc (by simp)
            | succ j =>
              exact ⟨j, by simpa using hj, by omega, by simpa using hc⟩
        · rw [(ih (k + 1) i).2.1]
          constructor
          · rintro ⟨j, hj, hij, hc⟩
            exact ⟨j + 1, by simpa using hj, by omega, by simpa using hc⟩
          · rintro ⟨j, hj, hij, hc⟩
            cases j with
            | zero =>
              simp only [List.getD_cons_zero] at hc
              rw [h2f] at hc
              exact absurd hc.2 (by simp)
            | succ j =>
              exact ⟨j, by simpa using hj, by omega, by simpa using hc⟩
        · simp only [List.mem_cons]
          constructor
          · rintro (rfl | hm)
            · exact ⟨0, by simp, by simp, by simpa using h1f,
                by simpa using h2f⟩
            · obtain ⟨j, hj, hij, hc⟩ := ((ih (k + 1) i).2.2).mp hm
              exact ⟨j + 1, by simpa using hj, by omega, by simpa using hc⟩
          · rintro ⟨j, hj, hij, hc⟩
            cases j with
            | zero => left; omega
            | succ j =>
              right
              exact ((ih (k + 1) i).2.2).mpr
                ⟨j, by simpa using hj, by omega, by simpa using hc⟩

theorem classifyPos_ge (c : ClosureMode) (pivot : ℤ) :
    ∀ (pairs : List (ℤ × ℤ)) (k : ℕ),
      (∀ i ∈ (classifyPos c pivot pairs k).1, k ≤ i)
      ∧ (∀ i ∈ (classifyPos c pivot pairs k).2.1, k ≤ i)
      ∧ (∀ i ∈ (classifyPos c pivot pairs k).2.2, k ≤ i) := by
  intro pairs k
  have h := classifyPos_mem c pivot pairs k
  refine ⟨?_, ?_, ?_⟩
  · intro i hi
    obtain ⟨j, _, hij, _⟩ := ((h i).1).mp hi
    omega
  · intro i hi
    obtain ⟨j, _, hij, _⟩ := ((h i).2.1).mp hi
    omega
  · intro i hi
    obtain ⟨j, _, hij, _⟩ := ((h i).2.2).mp hi
    omega

theorem classifyPos_pairwise (c : ClosureMode) (pivot : ℤ) :
    ∀ (pairs : List (ℤ × ℤ)) (k : ℕ),
      List.Pairwise (· < ·) (classifyPos c pivot pairs k).1
      ∧ List.Pairwise (· < ·) (classifyPos c pivot pairs k).2.1
      ∧ List.Pairwise (· < ·) (classifyPos c pivot pairs k).2.2 := by
  intro pairs
  induction pairs with
  | nil => intro k; simp [classifyPos]
  | cons pr rest ih =>
    intro k
    obtain ⟨l, r⟩ := pr
    rw [classifyPos]
    have hge2 := classifyPos_ge c pivot rest (k + 1)
    by_cases h1 : cmpRightConverseB c r pivot
    · rw [if_pos h1]
      refine ⟨?_, (ih (k + 1)).2.1, (ih (k + 1)).2.2⟩
      rw [List.pairwise_cons]
      refine ⟨?_, (ih (k + 1)).1⟩
      intro i hi
      have := hge2.1 i hi
      omega
    · rw [if_neg h1]
      by_cases h2 : cmpLeftConverseB c pivot l
      · rw [if_pos h2]
        refine ⟨(ih (k + 1)).1, ?_, (ih (k + 1)).2.2⟩
        rw [List.pairwise_cons]
        refine ⟨?_, (ih (k + 1)).2.1⟩
        intro i hi
        have := hge2.2.1 i hi
        omega
      · rw [if_neg h2]
        refine ⟨(ih (k + 1)).1, (ih (k + 1)).2.1, ?_⟩
        rw [List.pairwise_cons]
        refine ⟨?_, (ih (k + 1)).2.2⟩
        intro i hi
        have := hge2.2.2 i hi
        omega

/-! The batch indexer loops. -/

theorem getIndexerLoop_spec (c : ClosureMode) (root : Node)
    (elems : List Ivl)
    (hq : ∀ p, List.Perm (Node.query c root p) (bruteForce c elems p)) :
    ∀ (target : List ℤ) (acc : List ℤ),
      ((∀ p ∈ target, (bruteForce c elems p).length ≤ 1) →
        getIndexerLoop c root target acc
          = some (acc ++ target.map
              (fun p => (bruteForce c elems p).headD (-1))))
      ∧ ((∃ p ∈ target, 2 ≤ (bruteForce c elems p).length) →
        getIndexerLoop c root target acc = none) := by
  intro target
  induction target with
  | nil =>
    intro acc
    constructor
    · intro _
      simp [getIndexerLoop]
    · rintro ⟨p, hp, _⟩
      exact absurd hp (List.not_mem_nil p)
  | cons p rest ih =>
    intro acc
    rcases hbf : bruteForce c elems p with - | ⟨a, - | ⟨b, tl⟩⟩
    · have hq0 : Node.query c root p = [] := by
        have hp := hq p
        rw [hbf] at hp
        exact hp.eq_nil
      rw [getIndexerLoop]
      simp only [hq0, List.append_nil, if_pos rfl]
      constructor
      · intro hall
        rw [(ih (acc ++ [(-1 : ℤ)])).1
          (fun q hqmem => hall q (List.mem_cons_of_mem p hqmem))]
        rw [List.map_cons, hbf]
        simp
      · rintro ⟨q, hqmem, hq2⟩
        rcases List.mem_cons.mp hqmem with rfl | hqmem
        · rw [hbf] at hq2
          simp at hq2
        · exact (ih (acc ++ [(-1 : ℤ)])).2 ⟨q, hqmem, hq2⟩
    · have hq1 : Node.query c root p = [a] := by
        have hp := hq p
        rw [hbf] at hp
        exact List.perm_singleton.mp hp
      rw [getIndexerLoop]
      simp only [hq1]
      rw [if_neg (by simp), if_neg (by simp)]
      constructor
      · intro hall
        rw [(ih (acc ++ [a])).1
          (fun q hqmem => hall q (List.mem_cons_of_mem p hqmem))]
        rw [List.map_cons, hbf]
        simp
      · rintro ⟨q, hqmem, hq2⟩
        rcases List.mem_cons.mp hqmem with rfl | hqmem
        · rw [hbf] at hq2
          simp at hq2
        · exact (ih (acc ++ [a])).2 ⟨q, hqmem, hq2⟩
    · have hql : (Node.query c root p).length = tl.length + 2 := by
        have hp := (hq p).length_eq
        rw [hbf] at hp
        simpa using hp
      rw [getIndexerLoop]
      rw [if_neg (by simp [hql]), if_pos (by simp [hql])]
      constructor
      · intro hall
        have := hall p (List.mem_cons_self p rest)
        rw [hbf] at this
        simp at this
      · intro _
        rfl

theorem getIndexerNonUniqueLoop_spec (c : ClosureMode) (root : Node)
    (elems : List Ivl)
    (hq : ∀ p, List.Perm (Node.query c root p) (bruteForce c elems p)) :
    ∀ (target : List ℤ) (i0 : ℤ) (acc mis : List ℤ),
      getIndexerNonUniqueLoop c root target i0 acc mis
        = (acc ++ target.flatMap (fun p =>
             if bruteForce c elems p = [] then [(-1 : ℤ)]
             else Node.query c root p),
           mis ++ missingIdx c elems target i0) := by
  intro target
  induction target with
  | nil =>
    intro i0 acc mis
    simp [getIndexerNonUniqueLoop, missingIdx]
  | cons p rest ih =>
    intro i0 acc mis
    rw [getIndexerNonUniqueLoop, missingIdx]
    by_cases hbf : bruteForce c elems p = []
    · have hq0 : Node.query c root p = [] := by
        have hp := hq p
        rw [hbf] at hp
        exact hp.eq_nil
      simp only [hq0, List.append_nil, if_pos rfl, if_pos hbf]
      rw [ih (i0 + 1) (acc ++ [(-1 : ℤ)]) (mis ++ [i0])]
      rw [List.flatMap_cons, if_pos hbf]
      simp
    · have hq0 : Node.query c root p ≠ [] := by
        intro hnil
        have hp := (hq p).symm
        rw [hnil] at hp
        exact hbf hp.eq_nil
      rw [if_neg (by simpa using hq0), if_neg hbf]
      rw [ih (i0 + 1) (acc ++ Node.query c root p) mis]
      rw [List.flatMap_cons, if_neg hbf]
      rw [List.append_assoc]

/-! Remaining small utilities. -/

theorem mkElems_length_le :
    ∀ (ls rs : List ℤ) (k : ℤ), (mkElems ls rs k).length ≤ ls.length := by
  intro ls
  induction ls with
  | nil => intro rs k; cases rs <;> simp [mkElems]
  | cons l ls ih =>
    intro rs k
    cases rs with
    | nil => simp [mkElems]
    | cons r rs =>
      rw [mkElems, List.length_cons, List.length_cons]
      exact Nat.succ_le_succ (ih rs (k + 1))

theorem parseClosed_eq_none_iff (closed : String) :
    parseClosed closed = none ↔
      closed ≠ "left" ∧ closed ≠ "right" ∧ closed ≠ "both"
        ∧ closed ≠ "neither" := by
  rw [parseClosed]
  split_ifs with h1 h2 h3 h4 <;> simp_all

/-- The node recursion never returns on two identical degenerate intervals
with closed = left and leaf_size 1: the pivot is 0 and the classification
sends both elements to the left bucket, so every level recurses on the
unchanged element list; no fuel bound suffices. -/
theorem buildNode_degenerate_none :
    ∀ fuel : ℕ,
      buildNode ClosureMode.left 1 fuel [⟨0, 0, 0⟩, ⟨0, 0, 1⟩] = none := by
  intro fuel
  induction fuel with
  | zero => rfl
  | succ fuel ih =>
    rw [buildNode_succ]
    rw [if_neg (by decide)]
    have hpv : pivotOf [⟨0, 0, 0⟩, ⟨0, 0, 1⟩] = 0 := by decide
    rw [hpv]
    have hfL : ([⟨0, 0, 0⟩, ⟨0, 0, 1⟩] : List Ivl).filter
        (condLeftOf ClosureMode.left 0) = [⟨0, 0, 0⟩, ⟨0, 0, 1⟩] := by
      decide
    rw [hfL, ih]

/-! The claims. -/

/-- C1: for every tree built from the bound arrays with a valid closure
mode, and for every query point p, the set of positions appended by a
point query from the root equals the brute-force set of positions j with
left[j] cmp_left p and p cmp_right right[j] over the original unsorted
arrays, with the comparators given by the closure mode table. -/
theorem query_point_eq_brute_force_set (left right : List ℤ)
    (closed : String) (lsz : ℤ) (t : Tree)
    (h : build left right closed lsz = Except.ok t)
    (hlen : left.length = right.length) (p : ℤ) (i : ℤ) :
    i ∈ Node.query t.closed t.root p ↔
      ∃ j : ℕ, j < left.length ∧ i = (j : ℤ) ∧
        cmpLeftB t.closed (left.getD j 0) p = true ∧
        cmpRightB t.closed p (right.getD j 0) = true := by
  rw [List.Perm.mem_iff (build_query_perm left right closed lsz t h p)]
  rw [mem_bruteForce_mkElems]
  constructor
  · rintro ⟨j, hj1, hj2, hi, hc⟩
    rw [containsB, Bool.and_eq_true] at hc
    exact ⟨j, hj1, by simpa using hi, hc.1, hc.2⟩
  · rintro ⟨j, hj1, hi, hc1, hc2⟩
    refine ⟨j, hj1, by omega, by simpa using hi, ?_⟩
    rw [containsB, hc1, hc2]
    rfl

/-- Witness for C1 at a concrete build and query. -/
theorem query_point_eq_brute_force_set_witness :
    ∃ t : Tree, build [0, 1, 5] [2, 3, 7] "right" 100 = Except.ok t
      ∧ ((0 : ℤ) ∈ Node.query t.closed t.root 1 ↔
          ∃ j : ℕ, j < ([0, 1, 5] : List ℤ).length ∧ (0 : ℤ) = (j : ℤ) ∧
            cmpLeftB t.closed (([0, 1, 5] : List ℤ).getD j 0) 1 = true ∧
            cmpRightB t.closed 1 (([2, 3, 7] : List ℤ).getD j 0) = true) :=
  ⟨⟨ClosureMode.right, Node.leaf [⟨0, 2, 0⟩, ⟨1, 3, 1⟩, ⟨5, 7, 2⟩],
      [0, 1, 5], [2, 3, 7]⟩, rfl,
    query_point_eq_brute_force_set [0, 1, 5] [2, 3, 7] "right" 100
      ⟨ClosureMode.right, Node.leaf [⟨0, 2, 0⟩, ⟨1, 3, 1⟩, ⟨5, 7, 2⟩],
        [0, 1, 5], [2, 3, 7]⟩ rfl rfl 1 0⟩

/-- C2 counterexample: on the tree built from intervals (0,2),(1,3),(5,7)
with closed = right, the point query for 1 does not contain position 1,
so the result set is not the claimed set of 0 and 1; and the point query
for 2 does contain position 1, so the result set is not the claimed set
holding 0 only. -/
theorem spec_example_query_results_differ :
    build [0, 1, 5] [2, 3, 7] "right" 100
      = Except.ok (⟨ClosureMode.right,
          Node.leaf [⟨0, 2, 0⟩, ⟨1, 3, 1⟩, ⟨5, 7, 2⟩],
          [0, 1, 5], [2, 3, 7]⟩ : Tree)
    ∧ (1 : ℤ) ∉ Node.query ClosureMode.right
        (Node.leaf [⟨0, 2, 0⟩, ⟨1, 3, 1⟩, ⟨5, 7, 2⟩]) 1
    ∧ (1 : ℤ) ∈ Node.query ClosureMode.right
        (Node.leaf [⟨0, 2, 0⟩, ⟨1, 3, 1⟩, ⟨5, 7, 2⟩]) 2 :=
  ⟨rfl, by decide, by decide⟩

/-- C2 amended: on the tree built from intervals (0,2),(1,3),(5,7) with
closed = right, the point query for 1 returns exactly position 0, since
the right-closed interval (1,3] excludes its own left bound 1, and the
point query for 2 returns exactly positions 0 and 1. -/
theorem spec_example_corrected :
    build [0, 1, 5] [2, 3, 7] "right" 100
      = Except.ok (⟨ClosureMode.right,
          Node.leaf [⟨0, 2, 0⟩, ⟨1, 3, 1⟩, ⟨5, 7, 2⟩],
          [0, 1, 5], [2, 3, 7]⟩ : Tree)
    ∧ Node.query ClosureMode.right
        (Node.leaf [⟨0, 2, 0⟩, ⟨1, 3, 1⟩, ⟨5, 7, 2⟩]) 1 = [0]
    ∧ Node.query ClosureMode.right
        (Node.leaf [⟨0, 2, 0⟩, ⟨1, 3, 1⟩, ⟨5, 7, 2⟩]) 2 = [0, 1] :=
  ⟨rfl, by decide, by decide⟩

/-- C3: the unique batch indexer returns one entry per input point, the
unique matching original position or the sentinel -1, when every point
matches at most one interval; it fails, returning no indexer array at
all, as soon as some point matches two or more intervals. -/
theorem get_indexer_unique_spec (left right : List ℤ) (closed : String)
    (lsz : ℤ) (t : Tree) (h : build left right closed lsz = Except.ok t)
    (target : List ℤ) :
    ((∀ p ∈ target,
        (bruteForce t.closed (mkElems left right 0) p).length ≤ 1) →
      Tree.get_indexer t target
        = some (target.map (fun p =>
            (bruteForce t.closed (mkElems left right 0) p).headD (-1))))
    ∧ ((∃ p ∈ target,
        2 ≤ (bruteForce t.closed (mkElems left right 0) p).length) →
      Tree.get_indexer t target = none) := by
  have hq : ∀ p, List.Perm (Node.query t.closed t.root p)
      (bruteForce t.closed (mkElems left right 0) p) :=
    fun p => build_query_perm left right closed lsz t h p
  have hspec := getIndexerLoop_spec t.closed t.root (mkElems left right 0)
    hq target []
  rw [Tree.get_indexer]
  refine ⟨fun hall => ?_, hspec.2⟩
  rw [hspec.1 hall]
  simp

/-- Witness for C3 at a concrete build and target sequence. -/
theorem get_indexer_unique_spec_witness :
    ∃ t : Tree, build [0, 10] [1, 11] "both" 100 = Except.ok t
      ∧ Tree.get_indexer t [0, 20] = some [0, -1] := by
  refine ⟨⟨ClosureMode.both, Node.leaf [⟨0, 1, 0⟩, ⟨10, 11, 1⟩],
      [0, 10], [1, 11]⟩, rfl, ?_⟩
  rw [(get_indexer_unique_spec [0, 10] [1, 11] "both" 100
      ⟨ClosureMode.both, Node.leaf [⟨0, 1, 0⟩, ⟨10, 11, 1⟩],
        [0, 10], [1, 11]⟩ rfl [0, 20]).1 (by decide)]
  decide

/-- C4: classification places every input index in exactly one of the
three buckets, left_of when the right bound is before the pivot per the
converse of the right-contains comparator, else right_of when the pivot
is before the left bound per the converse of the left-contains comparator,
else center; the buckets are characterised by these conditions, are
mutually exclusive on every in-range index, and each bucket lists its
indices in strictly increasing input order. -/
theorem classify_intervals_partition (c : ClosureMode) (pivot : ℤ)
    (pairs : List (ℤ × ℤ)) :
    (∀ i : ℕ,
      (i ∈ (classifyPos c pivot pairs 0).1 ↔
        i < pairs.length ∧
          cmpRightConverseB c (pairs.getD i (0, 0)).2 pivot = true)
      ∧ (i ∈ (classifyPos c pivot pairs 0).2.1 ↔
        i < pairs.length ∧
          cmpRightConverseB c (pairs.getD i (0, 0)).2 pivot = false ∧
          cmpLeftConverseB c pivot (pairs.getD i (0, 0)).1 = true)
      ∧ (i ∈ (classifyPos c pivot pairs 0).2.2 ↔
        i < pairs.length ∧
          cmpRightConverseB c (pairs.getD i (0, 0)).2 pivot = false ∧
          cmpLeftConverseB c pivot (pairs.getD i (0, 0)).1 = false))
    ∧ (∀ i : ℕ, i < pairs.length →
        (i ∈ (classifyPos c pivot pairs 0).1
          ∧ i ∉ (classifyPos c pivot pairs 0).2.1
          ∧ i ∉ (classifyPos c pivot pairs 0).2.2)
        ∨ (i ∉ (classifyPos c pivot pairs 0).1
          ∧ i ∈ (classifyPos c pivot pairs 0).2.1
          ∧ i ∉ (classifyPos c pivot pairs 0).2.2)
        ∨ (i ∉ (classifyPos c pivot pairs 0).1
          ∧ i ∉ (classifyPos c pivot pairs 0).2.1
          ∧ i ∈ (classifyPos c pivot pairs 0).2.2))
    ∧ List.Pairwise (· < ·) (classifyPos c pivot pairs 0).1
    ∧ List.Pairwise (· < ·) (classifyPos c pivot pairs 0).2.1
    ∧ List.Pairwise (· < ·) (classifyPos c pivot pairs 0).2.2 := by
  have hmemL : ∀ i : ℕ, i ∈ (classifyPos c pivot pairs 0).1 ↔
      i < pairs.length ∧
        cmpRightConverseB c (pairs.getD i (0, 0)).2 pivot = true := by
    intro i
    rw [(classifyPos_mem c pivot pairs 0 i).1]
    constructor
    · rintro ⟨j, hj, hij, hc⟩
      have hji : j = i := by omega
      subst hji
      exact ⟨hj, hc⟩
    · rintro ⟨hi, hc⟩
      exact ⟨i, hi, by omega, hc⟩
  have hmemR : ∀ i : ℕ, i ∈ (classifyPos c pivot pairs 0).2.1 ↔
      i < pairs.length ∧
        cmpRightConverseB c (pairs.getD i (0, 0)).2 pivot = false ∧
        cmpLeftConverseB c pivot (pairs.getD i (0, 0)).1 = true := by
    intro i
    rw [(classifyPos_mem c pivot pairs 0 i).2.1]
    constructor
    · rintro ⟨j, hj, hij, hc⟩
      have hji : j = i := by omega
      subst hji
      exact ⟨hj, hc⟩
    · rintro ⟨hi, hc⟩
      exact ⟨i, hi, by omega, hc⟩
  have hmemC : ∀ i : ℕ, i ∈ (classifyPos c pivot pairs 0).2.2 ↔
      i < pairs.length ∧
        cmpRightConverseB c (pairs.getD i (0, 0)).2 pivot = false ∧
        cmpLeftConverseB c pivot (pairs.getD i (0, 0)).1 = false := by
    intro i
    rw [(classifyPos_mem c pivot pairs 0 i).2.2]
    constructor
    · rintro ⟨j, hj, hij, hc⟩
      have hji : j = i := by omega
      subst hji
      exact ⟨hj, hc⟩
    · rintro ⟨hi, hc⟩
      exact ⟨i, hi, by omega, hc⟩
  refine ⟨fun i => ⟨hmemL i, hmemR i, hmemC i⟩, ?_,
    (classifyPos_pairwise c pivot pairs 0).1,
    (classifyPos_pairwise c pivot pairs 0).2.1,
    (classifyPos_pairwise c pivot pairs 0).2.2⟩
  intro i hi
  cases hb1 : cmpRightConverseB c (pairs.getD i (0, 0)).2 pivot with
  | true =>
    left
    refine ⟨(hmemL i).mpr ⟨hi, hb1⟩, ?_, ?_⟩
    · intro hmem
      obtain ⟨-, h1, -⟩ := (hmemR i).mp hmem
      rw [hb1] at h1
      exact Bool.noConfusion h1
    · intro hmem
      obtain ⟨-, h1, -⟩ := (hmemC i).mp hmem
      rw [hb1] at h1
      exact Bool.noConfusion h1
  | false =>
    cases hb2 : cmpLeftConverseB c pivot (pairs.getD i (0, 0)).1 with
    | true =>
      right; left
      refine ⟨?_, (hmemR i).mpr ⟨hi, hb1, hb2⟩, ?_⟩
      · intro hmem
        obtain ⟨-, h1⟩ := (hmemL i).mp hmem
        rw [hb1] at h1
        exact Bool.noConfusion h1
      · intro hmem
        obtain ⟨-, -, h2⟩ := (hmemC i).mp hmem
        rw [hb2] at h2
        exact Bool.noConfusion h2
    | false =>
      right; right
      refine ⟨?_, ?_, (hmemC i).mpr ⟨hi, hb1, hb2⟩⟩
      · intro hmem
        obtain ⟨-, h1⟩ := (hmemL i).mp hmem
        rw [hb1] at h1
        exact Bool.noConfusion h1
      · intro hmem
        obtain ⟨-, -, h2⟩ := (hmemR i).mp hmem
        rw [hb2] at h2
        exact Bool.noConfusion h2

/-- Witness for C4: the exactly-one-bucket property at a concrete pivot,
interval list and index. -/
theorem classify_intervals_partition_witness :
    (0 ∈ (classifyPos ClosureMode.right 2
        [((0 : ℤ), (2 : ℤ)), (1, 3), (5, 7)] 0).1
      ∧ 0 ∉ (classifyPos ClosureMode.right 2
        [((0 : ℤ), (2 : ℤ)), (1, 3), (5, 7)] 0).2.1
      ∧ 0 ∉ (classifyPos ClosureMode.right 2
        [((0 : ℤ), (2 : ℤ)), (1, 3), (5, 7)] 0).2.2)
    ∨ (0 ∉ (classifyPos ClosureMode.right 2
        [((0 : ℤ), (2 : ℤ)), (1, 3), (5, 7)] 0).1
      ∧ 0 ∈ (classifyPos ClosureMode.right 2
        [((0 : ℤ), (2 : ℤ)), (1, 3), (5, 7)] 0).2.1
      ∧ 0 ∉ (classifyPos ClosureMode.right 2
        [((0 : ℤ), (2 : ℤ)), (1, 3), (5, 7)] 0).2.2)
    ∨ (0 ∉ (classifyPos ClosureMode.right 2
        [((0 : ℤ), (2 : ℤ)), (1, 3), (5, 7)] 0).1
      ∧ 0 ∉ (classifyPos ClosureMode.right 2
        [((0 : ℤ), (2 : ℤ)), (1, 3), (5, 7)] 0).2.1
      ∧ 0 ∈ (classifyPos ClosureMode.right 2
        [((0 : ℤ), (2 : ℤ)), (1, 3), (5, 7)] 0).2.2) :=
  (classify_intervals_partition ClosureMode.right 2
    [((0 : ℤ), (2 : ℤ)), (1, 3), (5, 7)]).2.1 0 (by decide)

/-- C5: every interval placed in the center set of a built internal node
contains the node's pivot; a query at the pivot appends exactly the
center index set with no recursion, the two children contain no interval
containing the pivot, and the appended set is exactly the set of matching
intervals among the node's elements. -/
theorem center_contains_pivot (c : ClosureMode) (lsz : ℤ) (fuel : ℕ)
    (elems : List Ivl) (pivot : ℤ) (ln rn : Node) (cl cr : List Ivl)
    (h : buildNode c lsz fuel elems = some (Node.node pivot ln rn cl cr)) :
    (∀ e ∈ cl, containsB c e.l e.r pivot = true)
    ∧ Node.query c (Node.node pivot ln rn cl cr) pivot
        = cl.map (fun e => e.idx)
    ∧ Node.query c ln pivot = []
    ∧ Node.query c rn pivot = []
    ∧ List.Perm (cl.map (fun e => e.idx)) (bruteForce c elems pivot) := by
  have hq := buildNode_query_perm c lsz fuel elems _ h pivot
  have hquery : Node.query c (Node.node pivot ln rn cl cr) pivot
      = cl.map (fun e => e.idx) := by
    simp only [Node.query]
    rw [if_neg (lt_irrefl pivot), if_neg (lt_irrefl pivot)]
  cases fuel with
  | zero => exact absurd h (by simp [buildNode])
  | succ fuel =>
    rw [buildNode_succ] at h
    by_cases hleaf : (elems.length : ℤ) ≤ lsz
    · rw [if_pos hleaf] at h
      injection h with h
      exact absurd h (by simp)
    · rw [if_neg hleaf] at h
      generalize hpiv : pivotOf elems = pv at h
      cases hln : buildNode c lsz fuel (elems.filter (condLeftOf c pv)) with
      | none =>
        rw [hln] at h
        exact absurd h (by simp)
      | some ln2 =>
        cases hrn : buildNode c lsz fuel
            (elems.filter (condRightOf c pv)) with
        | none =>
          rw [hln, hrn] at h
          exact absurd h (by simp)
        | some rn2 =>
          rw [hln, hrn] at h
          injection h with h
          injection h with e1 e2 e3 e4 e5
          subst e1
          subst e2
          subst e3
          subst e4
          have hLnil : bruteForce c (elems.filter (condLeftOf c pv)) pv
              = [] := by
            rw [bruteForce, List.filter_eq_nil_iff.mpr, List.map_nil]
            intro e he hcont
            have hc := (List.mem_filter.mp he).2
            rw [condLeftOf_not_contains c pv e hc] at hcont
            exact Bool.noConfusion hcont
          have hRnil : bruteForce c (elems.filter (condRightOf c pv)) pv
              = [] := by
            rw [bruteForce, List.filter_eq_nil_iff.mpr, List.map_nil]
            intro e he hcont
            have hc := (List.mem_filter.mp he).2
            rw [condRightOf_not_contains c pv e hc] at hcont
            exact Bool.noConfusion hcont
          refine ⟨?_, hquery, ?_, ?_, hquery ▸ hq⟩
          · intro e he
            have he2 : e ∈ elems.filter (condCenter c pv) :=
              (List.perm_insertionSort _ _).mem_iff.mp he
            have hc := (List.mem_filter.mp he2).2
            rw [condCenter_eq_contains] at hc
            exact hc
          · have hqln := buildNode_query_perm c lsz fuel _ ln2 hln pv
            rw [hLnil] at hqln
            exact hqln.eq_nil
          · have hqrn := buildNode_query_perm c lsz fuel _ rn2 hrn pv
            rw [hRnil] at hqrn
            exact hqrn.eq_nil

/-- Witness for C5 at a concrete internal node. -/
theorem center_contains_pivot_witness :
    Node.query ClosureMode.right
        (Node.node 2 (Node.leaf []) (Node.leaf [⟨5, 7, 2⟩])
          [⟨0, 2, 0⟩, ⟨1, 3, 1⟩] [⟨0, 2, 0⟩, ⟨1, 3, 1⟩]) 2
      = ([⟨0, 2, 0⟩, ⟨1, 3, 1⟩] : List Ivl).map (fun e => e.idx) :=
  (center_contains_pivot ClosureMode.right 1 3
    [⟨0, 2, 0⟩, ⟨1, 3, 1⟩, ⟨5, 7, 2⟩] 2 (Node.leaf [])
    (Node.leaf [⟨5, 7, 2⟩]) [⟨0, 2, 0⟩, ⟨1, 3, 1⟩]
    [⟨0, 2, 0⟩, ⟨1, 3, 1⟩] (by decide)).2.1

/-- C6: the non-unique batch indexer returns, per input point, the
sentinel -1 when the point matches no interval (and records that input
position in the missing list, and only those positions), and all matched
positions when the point matches one or more intervals, without failing;
the per-point matched positions are exactly the brute-force matches. -/
theorem get_indexer_non_unique_spec (left right : List ℤ) (closed : String)
    (lsz : ℤ) (t : Tree) (h : build left right closed lsz = Except.ok t)
    (target : List ℤ) :
    Tree.get_indexer_non_unique t target
      = (target.flatMap (fun p =>
           if bruteForce t.closed (mkElems left right 0) p = []
           then [(-1 : ℤ)]
           else Node.query t.closed t.root p),
         missingIdx t.closed (mkElems left right 0) target 0)
    ∧ ∀ p ∈ target,
        List.Perm (Node.query t.closed t.root p)
          (bruteForce t.closed (mkElems left right 0) p) := by
  have hq : ∀ p, List.Perm (Node.query t.closed t.root p)
      (bruteForce t.closed (mkElems left right 0) p) :=
    fun p => build_query_perm left right closed lsz t h p
  refine ⟨?_, fun p _ => hq p⟩
  rw [Tree.get_indexer_non_unique,
    getIndexerNonUniqueLoop_spec t.closed t.root (mkElems left right 0) hq
      target 0 [] []]
  simp

/-- Witness for C6 at a concrete build: point 1 matches both intervals
and contributes both positions without failure, point 10 matches nothing
and yields -1 plus a missing entry. -/
theorem get_indexer_non_unique_spec_witness :
    ∃ t : Tree, build [0, 0] [2, 3] "both" 100 = Except.ok t
      ∧ Tree.get_indexer_non_unique t [1, 10] = ([0, 1, -1], [1]) := by
  refine ⟨⟨ClosureMode.both, Node.leaf [⟨0, 2, 0⟩, ⟨0, 3, 1⟩],
      [0, 0], [2, 3]⟩, rfl, ?_⟩
  rw [(get_indexer_non_unique_spec [0, 0] [2, 3] "both" 100
      ⟨ClosureMode.both, Node.leaf [⟨0, 2, 0⟩, ⟨0, 3, 1⟩], [0, 0], [2, 3]⟩
      rfl [1, 10]).1]
  decide

/-- C7: single-key lookup fails with the key-not-found error exactly when
the root point query for the key produces an empty result set, and on
success returns exactly the matching positions.  The embedding is a pure
function of the tree value, so the tree is unchanged by a failing call
and later queries are unaffected. -/
theorem get_loc_spec (left right : List ℤ) (closed : String) (lsz : ℤ)
    (t : Tree) (h : build left right closed lsz = Except.ok t) (key : ℤ) :
    ((∃ e, Tree.get_loc t key = Except.error e) ↔
      bruteForce t.closed (mkElems left right 0) key = [])
    ∧ (∀ ixs, Tree.get_loc t key = Except.ok ixs →
        List.Perm ixs (bruteForce t.closed (mkElems left right 0) key)) := by
  have hq := build_query_perm left right closed lsz t h key
  rw [Tree.get_loc]
  by_cases hnil : Node.query t.closed t.root key = []
  · rw [hnil] at hq ⊢
    rw [if_pos (show ([] : List ℤ).length = 0 from rfl)]
    refine ⟨iff_of_true ⟨key, rfl⟩ hq.symm.eq_nil, ?_⟩
    intro ixs hix
    exact absurd hix (by simp)
  · rw [if_neg (fun hc => hnil (List.length_eq_zero.mp hc))]
    constructor
    · refine iff_of_false ?_ ?_
      · rintro ⟨e, he⟩
        exact absurd he (by simp)
      · intro hb
        rw [hb] at hq
        exact hnil hq.eq_nil
    · intro ixs hix
      injection hix with hix
      rw [← hix]
      exact hq

/-- Witness for C7: a key matching no interval makes get_loc fail. -/
theorem get_loc_spec_witness :
    ∃ e, Tree.get_loc
        (⟨ClosureMode.both, Node.leaf [⟨0, 1, 0⟩, ⟨10, 11, 1⟩],
          [0, 10], [1, 11]⟩ : Tree) 50 = Except.error e :=
  ((get_loc_spec [0, 10] [1, 11] "both" 100
      ⟨ClosureMode.both, Node.leaf [⟨0, 1, 0⟩, ⟨10, 11, 1⟩],
        [0, 10], [1, 11]⟩ rfl 50).1).mpr (by decide)

/-- C8 counterexample: the closed option left is recognised, yet the
build of two identical degenerate intervals with leaf_size 1 produces no
tree: the node recursion repeats the identical call at every level
(buildNode_degenerate_none), shown here at the depth bound of build and
at a far larger explicit bound. -/
theorem build_left_mode_diverges :
    parseClosed "left" = some ClosureMode.left
    ∧ build [0, 0] [0, 0] "left" 1 = Except.error BuildError.nonTermination
    ∧ buildNode ClosureMode.left 1 1000 [⟨0, 0, 0⟩, ⟨0, 0, 1⟩] = none :=
  ⟨rfl, rfl, buildNode_degenerate_none 1000⟩

/-- C8 amended: build fails with the invalid-argument error exactly when
the closed option is not one of the four recognised strings, and then no
tree is produced; for a recognised option the error is never raised, and
build produces a tree whenever the element count is at most leaf_size
(in general the node recursion need not terminate, see
build_left_mode_diverges). -/
theorem build_closed_validation (left right : List ℤ) (closed : String)
    (lsz : ℤ) :
    (build left right closed lsz
        = Except.error (BuildError.invalidClosedOption closed)
      ↔ (closed ≠ "left" ∧ closed ≠ "right" ∧ closed ≠ "both"
          ∧ closed ≠ "neither"))
    ∧ ((closed = "left" ∨ closed = "right" ∨ closed = "both"
          ∨ closed = "neither") → (left.length : ℤ) ≤ lsz →
        ∃ t : Tree, build left right closed lsz = Except.ok t) := by
  constructor
  · rw [← parseClosed_eq_none_iff]
    cases hp : parseClosed closed with
    | none =>
      rw [build, hp]
      exact iff_of_true rfl rfl
    | some c =>
      refine iff_of_false ?_ (by simp)
      intro h
      rw [build, hp] at h
      dsimp only at h
      cases hb : buildNode c lsz ((mkElems left right 0).length + 1)
          (mkElems left right 0) with
      | none =>
        rw [hb] at h
        injection h with h
        exact BuildError.noConfusion h
      | some root =>
        rw [hb] at h
        exact Except.noConfusion h
  · intro hfour hsize
    obtain ⟨c, hc⟩ : ∃ c, parseClosed closed = some c := by
      rcases hfour with h | h | h | h <;> subst h <;> exact ⟨_, rfl⟩
    refine ⟨⟨c, Node.leaf (mkElems left right 0), left, right⟩, ?_⟩
    rw [build, hc]
    dsimp only
    have hn : ((mkElems left right 0).length : ℤ) ≤ lsz := by
      have hle := mkElems_length_le left right 0
      omega
    rw [buildNode_succ, if_pos hn]

/-- Witness for C8: a recognised option with a sufficient leaf size
builds a tree. -/
theorem build_closed_validation_witness :
    ∃ t : Tree, build [0, 1] [2, 3] "both" 4 = Except.ok t :=
  (build_closed_validation [0, 1] [2, 3] "both" 4).2
    (Or.inr (Or.inr (Or.inl rfl))) (by decide)

/-- C9: for a fixed interval set and closure mode, the tree built with
leaf_size 1 and the tree built with leaf_size n, a single leaf scanning
linearly, return the same point-query result set at every point. -/
theorem leaf_size_one_eq_pure_leaf (left right : List ℤ) (closed : String)
    (t1 tn : Tree)
    (h1 : build left right closed 1 = Except.ok t1)
    (hn : build left right closed (left.length : ℤ) = Except.ok tn)
    (p : ℤ) (i : ℤ) :
    i ∈ Node.query t1.closed t1.root p ↔
      i ∈ Node.query tn.closed tn.root p := by
  have hq1 := build_query_perm left right closed 1 t1 h1 p
  have hqn := build_query_perm left right closed (left.length : ℤ) tn hn p
  have e1 := (build_ok_elim left right closed 1 t1 h1).1
  have en := (build_ok_elim left right closed (left.length : ℤ) tn hn).1
  rw [e1] at en
  injection en with hcc
  rw [hq1.mem_iff, hqn.mem_iff, hcc]

/-- Witness for C9: a depth-2 tree with leaf_size 1 and a pure leaf with
leaf_size 3 on the same three intervals agree at a sample point. -/
theorem leaf_size_one_eq_pure_leaf_witness :
    ∃ t1 tn : Tree,
      build [0, 1, 5] [2, 3, 7] "right" 1 = Except.ok t1
      ∧ build [0, 1, 5] [2, 3, 7] "right"
          (([0, 1, 5] : List ℤ).length : ℤ) = Except.ok tn
      ∧ ((0 : ℤ) ∈ Node.query t1.closed t1.root 1 ↔
          (0 : ℤ) ∈ Node.query tn.closed tn.root 1) :=
  ⟨⟨ClosureMode.right,
      Node.node 2 (Node.leaf []) (Node.leaf [⟨5, 7, 2⟩])
        [⟨0, 2, 0⟩, ⟨1, 3, 1⟩] [⟨0, 2, 0⟩, ⟨1, 3, 1⟩],
      [0, 1, 5], [2, 3, 7]⟩,
    ⟨ClosureMode.right, Node.leaf [⟨0, 2, 0⟩, ⟨1, 3, 1⟩, ⟨5, 7, 2⟩],
      [0, 1, 5], [2, 3, 7]⟩,
    rfl, rfl,
    leaf_size_one_eq_pure_leaf [0, 1, 5] [2, 3, 7] "right"
      ⟨ClosureMode.right,
        Node.node 2 (Node.leaf []) (Node.leaf [⟨5, 7, 2⟩])
          [⟨0, 2, 0⟩, ⟨1, 3, 1⟩] [⟨0, 2, 0⟩, ⟨1, 3, 1⟩],
        [0, 1, 5], [2, 3, 7]⟩
      ⟨ClosureMode.right, Node.leaf [⟨0, 2, 0⟩, ⟨1, 3, 1⟩, ⟨5, 7, 2⟩],
        [0, 1, 5], [2, 3, 7]⟩
      rfl rfl 1 0⟩

/-- C10: in a built tree the stored original positions, over all leaf
slices and center arrays, are exactly the input positions as a multiset
(each original index lives in exactly one place), that multiset has no
duplicates, and consequently no point query ever appends the same
original index twice. -/
theorem built_tree_partition_and_nodup (left right : List ℤ)
    (closed : String) (lsz : ℤ) (t : Tree)
    (h : build left right closed lsz = Except.ok t) :
    Node.allIdx t.root
      = (((mkElems left right 0).map (fun e => e.idx) : List ℤ) : Multiset ℤ)
    ∧ (Node.allIdx t.root).Nodup
    ∧ ∀ p : ℤ, (Node.query t.closed t.root p).Nodup := by
  obtain ⟨-, hb, -, -⟩ := build_ok_elim left right closed lsz t h
  have hall := buildNode_allIdx t.closed lsz _ _ t.root hb
  refine ⟨hall, ?_, ?_⟩
  · rw [hall, Multiset.coe_nodup]
    have h2 : ((mkElems left right 0).map
        (fun e => e.idx)).Pairwise (· ≠ ·) := by
      rw [List.pairwise_map]
      exact (mkElems_idx_pairwise left right 0).imp (fun hlt => ne_of_lt hlt)
    exact h2
  · intro p
    have hq := buildNode_query_perm t.closed lsz _ _ t.root hb p
    exact hq.nodup_iff.mpr (bruteForce_mkElems_nodup t.closed left right 0 p)

/-- Witness for C10: duplicate-freedom of a concrete query result on a
built tree where the point matches both intervals. -/
theorem built_tree_partition_and_nodup_witness :
    (Node.query ClosureMode.both (Node.leaf [⟨0, 2, 0⟩, ⟨0, 3, 1⟩]) 1).Nodup :=
  (built_tree_partition_and_nodup [0, 0] [2, 3] "both" 100
    ⟨ClosureMode.both, Node.leaf [⟨0, 2, 0⟩, ⟨0, 3, 1⟩], [0, 0], [2, 3]⟩
    rfl).2.2 1

end IntervalTreeModel
